import Mathlib

/-!
Shallow embedding of the canonical map codec from lnwire/local_nonces.go:
encodeLocalNoncesData and decodeLocalNoncesData for LocalNoncesData, the
TLV value-plane codec mapping 32-byte transaction ids to 66-byte musig2
nonces.  Bytes are modelled as natural numbers, byte strings as lists,
the Go map as an association list with replace-on-collision insertion,
and the possibly nil Go map as an Option.
-/

namespace LnwireLocalNonces

/-- chainhash.HashSize: a transaction id is 32 bytes. -/
def HashSize : Nat := 32

/-- musig2.PubNonceSize: a musig2 public nonce is 66 bytes. -/
def PubNonceSize : Nat := 66

/-- chainhash.Hash, treated by the codec as an opaque byte string. -/
abbrev Hash := List Nat

/-- Musig2Nonce, treated by the codec as an opaque byte string. -/
abbrev Musig2Nonce := List Nat

/-- LocalNonceEntry: one TXID to nonce pair. -/
abbrev LocalNonceEntry := Hash × Musig2Nonce

/-- The contents of the Go map from chainhash.Hash to Musig2Nonce, as an
association list in some enumeration order. -/
abbrev NMap := List LocalNonceEntry

/-- LocalNoncesData: the record value; none models a nil Go map. -/
structure LocalNoncesData where
  noncesMap : Option NMap
deriving DecidableEq, Repr

/-- Go map assignment m[k] = v: replace the value at an existing key,
otherwise add the pair. -/
def mapInsert : NMap → Hash → Musig2Nonce → NMap
  | [], k, v => [(k, v)]
  | e :: t, k, v => if e.1 = k then (k, v) :: t else e :: mapInsert t k v

/-- Go map lookup m[k] on the association-list model. -/
def mapLookup : NMap → Hash → Option Musig2Nonce
  | [], _ => none
  | e :: t, k => if e.1 = k then some e.2 else mapLookup t k

/-- The value carried by the last entry with a given id in stream order,
if any; used to state the last-one-wins duplicate policy. -/
def lastAssoc : List LocalNonceEntry → Hash → Option Musig2Nonce
  | [], _ => none
  | e :: t, k =>
    match lastAssoc t k with
    | some v => some v
    | none => if e.1 = k then some e.2 else none

/-- bytes.Compare(a, b) < 0: strict byte-lexicographic order, most
significant byte first, a strict prefix comparing below its extensions. -/
def bytesLt : List Nat → List Nat → Bool
  | [], [] => false
  | [], _ :: _ => true
  | _ :: _, [] => false
  | a :: as, b :: bs => if a < b then true else if b < a then false else bytesLt as bs

/-- The sort comparator of encodeLocalNoncesData lifted to a weak order
on entries: e comes no later than f when the TXID of f does not compare
strictly below the TXID of e. -/
def entryLE (e f : LocalNonceEntry) : Bool := !(bytesLt f.1 e.1)

/-- Insert an entry into a list ordered by entryLE, keeping the order. -/
def orderedInsertE (e : LocalNonceEntry) : List LocalNonceEntry → List LocalNonceEntry
  | [] => [e]
  | f :: fs => if entryLE e f then e :: f :: fs else f :: orderedInsertE e fs

/-- The sort.Slice call of encodeLocalNoncesData: sort the materialized
entries ascending by byte-lexicographic comparison of the TXID. -/
def sortEntries : List LocalNonceEntry → List LocalNonceEntry
  | [] => []
  | e :: es => orderedInsertE e (sortEntries es)

/-- The Go conversion uint16(n): reduce modulo 2 to the 16. -/
def toUint16 (n : Nat) : Nat := n % 65536

/-- binary.BigEndian.PutUint16 for a value below 65536: two bytes, most
significant first. -/
def putUint16be (v : Nat) : List Nat := [v / 256, v % 256]

/-- encodeLocalNoncesData, writing to a pure byte-list sink: emit the
2-byte big-endian entry count, then each entry (32 TXID bytes followed by
66 nonce bytes) in ascending TXID order.  A nil or empty map contributes
a zero count and no entries. -/
def encodeLocalNoncesData (lnd : LocalNoncesData) : List Nat :=
  match lnd.noncesMap with
  | none => putUint16be (toUint16 0)
  | some m =>
    if m.length = 0 then putUint16be (toUint16 0)
    else
      let sortedEntries := sortEntries m
      let numEntries := toUint16 sortedEntries.length
      putUint16be numEntries ++ sortedEntries.flatMap (fun e => e.1 ++ e.2)

/-- The error taxonomy of decodeLocalNoncesData: record too short to hold
the count field, declared record length inconsistent with the decoded
count, or a short read on the underlying source (io.ReadFull failure). -/
inductive DecodeError where
  | tooShort (recordLen : Nat)
  | lengthMismatch (recordLen expected : Nat)
  | truncated
deriving DecidableEq, Repr

/-- The entry-reading loop of decodeLocalNoncesData: read n entries, each
as 32 TXID bytes then 66 nonce bytes via io.ReadFull, assigning each pair
into the destination map as it is read.  Returns the outcome, the map
after the loop, and the unread remainder of the stream. -/
def decodeLoop : List Nat → Nat → NMap → Except DecodeError Unit × NMap × List Nat
  | s, 0, m => (Except.ok (), m, s)
  | s, n + 1, m =>
    if 32 ≤ s.length then
      let txid := s.take 32
      let s1 := s.drop 32
      if 66 ≤ s1.length then
        decodeLoop (s1.drop 66) n (mapInsert m txid (s1.take 66))
      else (Except.error DecodeError.truncated, m, s1.drop 66)
    else (Except.error DecodeError.truncated, m, s.drop 32)

/-- decodeLocalNoncesData over a pure byte-list source s with declared
value length recordLen.  Mirrors the Go control flow: initialize a nil
map; accept recordLen zero as the empty collection, clearing the map;
reject 0 < recordLen < 2 as too short; read the 2-byte big-endian count;
reject any recordLen differing from 2 + count * 98; clear the map on a
zero count; otherwise replace the map with a fresh one and run the entry
loop.  Returns the outcome, the destination after the call, and the
unread remainder of the stream. -/
def decodeLocalNoncesData (s : List Nat) (lnd : LocalNoncesData) (recordLen : Nat) :
    Except DecodeError Unit × LocalNoncesData × List Nat :=
  let m0 := lnd.noncesMap.getD []
  if recordLen < 2 then
    if recordLen = 0 then
      (Except.ok (), ⟨some (if 0 < m0.length then [] else m0)⟩, s)
    else
      (Except.error (DecodeError.tooShort recordLen), ⟨some m0⟩, s)
  else
    if 2 ≤ s.length then
      let numEntries := s.getD 0 0 * 256 + s.getD 1 0
      let s1 := s.drop 2
      let expected := 2 + numEntries * (HashSize + PubNonceSize)
      if recordLen ≠ expected then
        (Except.error (DecodeError.lengthMismatch recordLen expected), ⟨some m0⟩, s1)
      else if numEntries = 0 then
        (Except.ok (), ⟨some (if 0 < m0.length then [] else m0)⟩, s1)
      else
        let r := decodeLoop s1 numEntries []
        (r.1, ⟨some r.2.1⟩, r.2.2)
    else (Except.error DecodeError.truncated, ⟨some m0⟩, s.drop 2)

/-! Concrete test vectors in the style of the repository tests: uniform
fill ids and nonces, plus a family of 65536 pairwise distinct ids for the
16-bit count boundary. -/

/-- A 32-byte id of uniform fill 1. -/
def txidLo : Hash := List.replicate 32 1

/-- A 32-byte id of uniform fill 2. -/
def txidHi : Hash := List.replicate 32 2

/-- A 66-byte nonce of uniform fill 7. -/
def nonceLo : Musig2Nonce := List.replicate 66 7

/-- A 66-byte nonce of uniform fill 8. -/
def nonceHi : Musig2Nonce := List.replicate 66 8

/-- The i-th member of a family of 32-byte ids that are pairwise distinct
for i below 65536: thirty zero bytes followed by the 2-byte big-endian
image of i. -/
def bigId (i : Nat) : Hash := List.replicate 30 0 ++ [i / 256, i % 256]

/-- A collection of exactly 65536 entries with pairwise distinct ids. -/
def bigCollection : NMap :=
  (List.range 65536).map (fun i => (bigId i, (List.replicate 66 0 : Musig2Nonce)))

/-! Order lemmas for the byte-lexicographic comparator. -/

theorem bytesLt_asymm (a : List Nat) :
    ∀ b, bytesLt a b = true → bytesLt b a = true → False := by
  induction a with
  | nil =>
    intro b h1 h2
    cases b <;> simp [bytesLt] at h1 h2
  | cons x xs ih =>
    intro b h1 h2
    cases b with
    | nil => simp [bytesLt] at h1
    | cons y ys =>
      simp only [bytesLt] at h1 h2
      rcases Nat.lt_trichotomy x y with h | h | h
      · simp [h, Nat.lt_asymm h] at h2
      · subst h
        simp only [Nat.lt_irrefl, if_false] at h1 h2
        exact ih ys h1 h2
      · simp [h, Nat.lt_asymm h] at h1

theorem bytesLt_trichot (a : List Nat) :
    ∀ b, bytesLt a b = true ∨ a = b ∨ bytesLt b a = true := by
  induction a with
  | nil =>
    intro b
    cases b with
    | nil => exact Or.inr (Or.inl rfl)
    | cons y ys => exact Or.inl (by simp [bytesLt])
  | cons x xs ih =>
    intro b
    cases b with
    | nil => exact Or.inr (Or.inr (by simp [bytesLt]))
    | cons y ys =>
      rcases Nat.lt_trichotomy x y with h | h | h
      · exact Or.inl (by simp [bytesLt, h])
      · subst h
        rcases ih ys with h2 | h2 | h2
        · exact Or.inl (by simp [bytesLt, Nat.lt_irrefl, h2])
        · exact Or.inr (Or.inl (by rw [h2]))
        · exact Or.inr (Or.inr (by simp [bytesLt, Nat.lt_irrefl, h2]))
      · exact Or.inr (Or.inr (by simp [bytesLt, h]))

theorem bytesLt_trans (a : List Nat) :
    ∀ b c, bytesLt a b = true → bytesLt b c = true → bytesLt a c = true := by
  induction a with
  | nil =>
    intro b c h1 h2
    cases b <;> cases c <;> simp_all [bytesLt]
  | cons x xs ih =>
    intro b c h1 h2
    cases b with
    | nil => simp [bytesLt] at h1
    | cons y ys =>
      cases c with
      | nil => simp [bytesLt] at h2
      | cons z zs =>
        simp only [bytesLt] at h1 h2 ⊢
        rcases Nat.lt_trichotomy x y with hxy | hxy | hxy
        · rcases Nat.lt_trichotomy y z with hyz | hyz | hyz
          · simp [Nat.lt_trans hxy hyz]
          · subst hyz; simp [hxy]
          · simp [Nat.lt_asymm hyz, hyz] at h2
        · subst hxy
          simp only [Nat.lt_irrefl, if_false] at h1
          rcases Nat.lt_trichotomy x z with hxz | hxz | hxz
          · simp [hxz]
          · subst hxz
            simp only [Nat.lt_irrefl, if_false] at h2 ⊢
            exact ih ys zs h1 h2
          · simp [Nat.lt_asymm hxz, hxz] at h2
        · simp [Nat.lt_asymm hxy, hxy] at h1

theorem entryLE_total (e f : LocalNonceEntry) :
    entryLE e f = true ∨ entryLE f e = true := by
  simp only [entryLE, Bool.not_eq_true']
  by_cases h : bytesLt f.1 e.1 = true
  · by_cases h2 : bytesLt e.1 f.1 = true
    · exact (bytesLt_asymm _ _ h2 h).elim
    · exact Or.inr (by simpa using h2)
  · exact Or.inl (by simpa using h)

theorem entryLE_trans {a b c : LocalNonceEntry}
    (h1 : entryLE a b = true) (h2 : entryLE b c = true) : entryLE a c = true := by
  simp only [entryLE, Bool.not_eq_true'] at h1 h2 ⊢
  by_contra h
  rw [Bool.not_eq_false] at h
  rcases bytesLt_trichot b.1 c.1 with hbc | hbc | hbc
  · have := bytesLt_trans _ _ _ hbc h
    simp [this] at h1
  · rw [← hbc] at h
    simp [h] at h1
  · simp [hbc] at h2

theorem entryLE_of_not_keyLt {a b : LocalNonceEntry}
    (h : bytesLt b.1 a.1 ≠ true) : entryLE a b = true := by
  simp only [entryLE, Bool.not_eq_true']
  simpa using h

/-! Lemmas about the insertion sort used to model sort.Slice. -/

theorem perm_orderedInsertE (e : LocalNonceEntry) (l : List LocalNonceEntry) :
    (orderedInsertE e l).Perm (e :: l) := by
  induction l with
  | nil => simp [orderedInsertE]
  | cons f fs ih =>
    by_cases h : entryLE e f = true
    · simp [orderedInsertE, h]
    · rw [orderedInsertE, if_neg h]
      exact (ih.cons f).trans (List.Perm.swap e f fs)

theorem perm_sortEntries (l : List LocalNonceEntry) : (sortEntries l).Perm l := by
  induction l with
  | nil => simp [sortEntries]
  | cons e es ih =>
    exact (perm_orderedInsertE e (sortEntries es)).trans (ih.cons e)

theorem pairwise_orderedInsertE (e : LocalNonceEntry) (l : List LocalNonceEntry)
    (h : l.Pairwise (fun a b => entryLE a b = true)) :
    (orderedInsertE e l).Pairwise (fun a b => entryLE a b = true) := by
  induction l with
  | nil => simp [orderedInsertE]
  | cons f fs ih =>
    rcases List.pairwise_cons.mp h with ⟨hf, hfs⟩
    by_cases hef : entryLE e f = true
    · rw [orderedInsertE, if_pos hef]
      refine List.pairwise_cons.mpr ⟨?_, h⟩
      intro b hb
      rcases List.mem_cons.mp hb with rfl | hb
      · exact hef
      · exact entryLE_trans hef (hf b hb)
    · rw [orderedInsertE, if_neg hef]
      refine List.pairwise_cons.mpr ⟨?_, ih hfs⟩
      intro b hb
      rcases List.mem_cons.mp ((perm_orderedInsertE e fs).mem_iff.mp hb) with hbe | h'
      · rw [hbe]
        rcases entryLE_total e f with h' | h'
        · exact absurd h' hef
        · exact h'
      · exact hf b h'

theorem pairwise_sortEntries (l : List LocalNonceEntry) :
    (sortEntries l).Pairwise (fun a b => entryLE a b = true) := by
  induction l with
  | nil => simp [sortEntries]
  | cons e es ih => exact pairwise_orderedInsertE e (sortEntries es) ih

theorem pairwise_keyLt_of_nodup (l : List LocalNonceEntry)
    (hs : l.Pairwise (fun a b => entryLE a b = true))
    (hnd : (l.map Prod.fst).Nodup) :
    l.Pairwise (fun a b => bytesLt a.1 b.1 = true) := by
  have hnd' : l.Pairwise (fun a b => a.1 ≠ b.1) := List.pairwise_map.mp hnd
  refine (hs.and hnd').imp ?_
  rintro a b ⟨hle, hne⟩
  rcases bytesLt_trichot a.1 b.1 with h | h | h
  · exact h
  · exact absurd h hne
  · have : bytesLt b.1 a.1 = false := by simpa [entryLE] using hle
    simp [h] at this

theorem eq_of_perm_of_keyLt_sorted (l₁ : List LocalNonceEntry) :
    ∀ l₂ : List LocalNonceEntry, l₁.Perm l₂ →
      l₁.Pairwise (fun a b => bytesLt a.1 b.1 = true) →
      l₂.Pairwise (fun a b => bytesLt a.1 b.1 = true) → l₁ = l₂ := by
  induction l₁ with
  | nil =>
    intro l₂ hp _ _
    exact (hp.symm.eq_nil).symm
  | cons a t ih =>
    intro l₂ hp h1 h2
    cases l₂ with
    | nil =>
      have := hp.eq_nil
      simp at this
    | cons b t₂ =>
      by_cases hab : a = b
      · subst hab
        have ht : t.Perm t₂ := hp.cons_inv
        rcases List.pairwise_cons.mp h1 with ⟨_, h1'⟩
        rcases List.pairwise_cons.mp h2 with ⟨_, h2'⟩
        rw [ih t₂ ht h1' h2']
      · have ha : a ∈ b :: t₂ := hp.mem_iff.mp (List.mem_cons_self a t)
        have ha' : a ∈ t₂ := by
          rcases List.mem_cons.mp ha with h | h
          · exact absurd h hab
          · exact h
        have hba : bytesLt b.1 a.1 = true := (List.pairwise_cons.mp h2).1 a ha'
        have hb : b ∈ a :: t := hp.symm.mem_iff.mp (List.mem_cons_self b t₂)
        have hb' : b ∈ t := by
          rcases List.mem_cons.mp hb with h | h
          · exact absurd h.symm hab
          · exact h
        have hab' : bytesLt a.1 b.1 = true := (List.pairwise_cons.mp h1).1 b hb'
        exact (bytesLt_asymm _ _ hab' hba).elim

theorem sortEntries_eq_of_perm (S1 S2 : NMap) (hperm : S1.Perm S2)
    (hnd : (S1.map Prod.fst).Nodup) : sortEntries S1 = sortEntries S2 := by
  have p1 := perm_sortEntries S1
  have p2 := perm_sortEntries S2
  have hperm' : (sortEntries S1).Perm (sortEntries S2) := p1.trans (hperm.trans p2.symm)
  have hnd2' : (S2.map Prod.fst).Nodup := (hperm.map Prod.fst).nodup_iff.mp hnd
  have hnd1 : ((sortEntries S1).map Prod.fst).Nodup := (p1.map Prod.fst).nodup_iff.mpr hnd
  have hnd2 : ((sortEntries S2).map Prod.fst).Nodup := (p2.map Prod.fst).nodup_iff.mpr hnd2'
  exact eq_of_perm_of_keyLt_sorted _ _ hperm'
    (pairwise_keyLt_of_nodup _ (pairwise_sortEntries S1) hnd1)
    (pairwise_keyLt_of_nodup _ (pairwise_sortEntries S2) hnd2)

/-! Lemmas about the association-list model of the Go map. -/

theorem mapInsert_eq_append (m : NMap) (k : Hash) (v : Musig2Nonce)
    (h : k ∉ m.map Prod.fst) : mapInsert m k v = m ++ [(k, v)] := by
  induction m with
  | nil => rfl
  | cons e t ih =>
    simp only [List.map_cons, List.mem_cons] at h
    push_neg at h
    rw [mapInsert, if_neg (fun he => h.1 he.symm), ih h.2]
    simp

theorem foldl_mapInsert_eq_append (es : List LocalNonceEntry) :
    ∀ m : NMap, (es.map Prod.fst).Nodup →
      (∀ k, k ∈ es.map Prod.fst → k ∉ m.map Prod.fst) →
      es.foldl (fun a e => mapInsert a e.1 e.2) m = m ++ es := by
  induction es with
  | nil => intro m _ _; simp
  | cons e t ih =>
    intro m hnd hdisj
    have hnd' : (e.1 :: t.map Prod.fst).Nodup := by simpa only [List.map_cons] using hnd
    rcases List.nodup_cons.mp hnd' with ⟨het, hndt⟩
    simp only [List.foldl_cons]
    rw [mapInsert_eq_append m e.1 e.2 (hdisj e.1 (by simp))]
    rw [ih (m ++ [(e.1, e.2)]) hndt ?_]
    · simp
    · intro k hk
      simp only [List.map_append, List.mem_append, List.map_cons, List.map_nil,
        List.mem_singleton]
      push_neg
      refine ⟨hdisj k (by simp [hk]), ?_⟩
      intro hke
      exact het (hke ▸ hk)

theorem mapLookup_mapInsert (m : NMap) (k : Hash) (v : Musig2Nonce) (k2 : Hash) :
    mapLookup (mapInsert m k v) k2 = if k = k2 then some v else mapLookup m k2 := by
  induction m with
  | nil => rfl
  | cons e t ih =>
    by_cases hek : e.1 = k
    · rw [mapInsert, if_pos hek, mapLookup]
      by_cases hk2 : k = k2
      · simp [hk2]
      · rw [if_neg hk2, if_neg hk2, mapLookup, if_neg (by rw [hek]; exact hk2)]
    · rw [mapInsert, if_neg hek, mapLookup, ih]
      by_cases he2 : e.1 = k2
      · rw [if_pos he2, mapLookup, if_pos he2, if_neg (by rw [← he2]; exact fun hh => hek hh.symm)]
      · rw [if_neg he2, mapLookup, if_neg he2]

theorem mapLookup_foldl (es : List LocalNonceEntry) :
    ∀ (m : NMap) (k : Hash),
      mapLookup (es.foldl (fun a e => mapInsert a e.1 e.2) m) k
        = ((lastAssoc es k).orElse fun _ => mapLookup m k) := by
  induction es with
  | nil => intro m k; simp [lastAssoc]
  | cons e t ih =>
    intro m k
    simp only [List.foldl_cons]
    rw [ih]
    cases hl : lastAssoc t k with
    | some v => simp [lastAssoc, hl]
    | none =>
      rw [mapLookup_mapInsert]
      by_cases hek : e.1 = k
      · simp [lastAssoc, hl, hek]
      · simp [lastAssoc, hl, hek]

/-! Lemmas about the wire image of an entry list and the decode loop. -/

theorem flatMap_entries_length (es : List LocalNonceEntry)
    (h : ∀ e ∈ es, e.1.length = HashSize ∧ e.2.length = PubNonceSize) :
    (es.flatMap (fun e => e.1 ++ e.2)).length = es.length * 98 := by
  induction es with
  | nil => simp
  | cons e t ih =>
    have he := h e (List.mem_cons_self e t)
    have ht : ∀ e' ∈ t, e'.1.length = HashSize ∧ e'.2.length = PubNonceSize :=
      fun e' he' => h e' (List.mem_cons_of_mem e he')
    have h1 : e.1.length = 32 := by simpa [HashSize] using he.1
    have h2 : e.2.length = 66 := by simpa [PubNonceSize] using he.2
    simp only [List.flatMap_cons, List.length_append, List.length_cons, ih ht, h1, h2]
    omega

theorem decodeLoop_encoded (es : List LocalNonceEntry) :
    ∀ (m : NMap) (rest : List Nat),
      (∀ e ∈ es, e.1.length = HashSize ∧ e.2.length = PubNonceSize) →
      decodeLoop (es.flatMap (fun e => e.1 ++ e.2) ++ rest) es.length m
        = (Except.ok (), es.foldl (fun a e => mapInsert a e.1 e.2) m, rest) := by
  induction es with
  | nil => intro m rest _; simp [decodeLoop]
  | cons e t ih =>
    intro m rest h
    have he := h e (List.mem_cons_self e t)
    have h32 : e.1.length = 32 := by simpa [HashSize] using he.1
    have h66 : e.2.length = 66 := by simpa [PubNonceSize] using he.2
    have hstream : (e :: t).flatMap (fun e => e.1 ++ e.2) ++ rest
        = e.1 ++ (e.2 ++ (t.flatMap (fun e => e.1 ++ e.2) ++ rest)) := by
      simp [List.flatMap_cons]
    rw [hstream, List.length_cons, decodeLoop]
    have c1 : 32 ≤ (e.1 ++ (e.2 ++ (t.flatMap (fun e => e.1 ++ e.2) ++ rest))).length := by
      simp [h32]
    rw [if_pos c1, List.take_left' h32, List.drop_left' h32]
    have c2 : 66 ≤ (e.2 ++ (t.flatMap (fun e => e.1 ++ e.2) ++ rest)).length := by
      simp [h66]
    rw [if_pos c2, List.take_left' h66, List.drop_left' h66]
    rw [ih (mapInsert m e.1 e.2) rest (fun e' he' => h e' (List.mem_cons_of_mem e he'))]
    simp

/-! Unfolding lemmas for decodeLocalNoncesData. -/

theorem decodeLocalNoncesData_zero (s : List Nat) (dst : LocalNoncesData) :
    decodeLocalNoncesData s dst 0 = (Except.ok (), ⟨some []⟩, s) := by
  have hm : (if 0 < (dst.noncesMap.getD []).length then ([] : NMap)
      else dst.noncesMap.getD []) = [] := by
    cases dst.noncesMap.getD [] with
    | nil => simp
    | cons a t => simp
  simp [decodeLocalNoncesData, hm]

theorem decodeLocalNoncesData_one (s : List Nat) (dst : LocalNoncesData) :
    decodeLocalNoncesData s dst 1
      = (Except.error (DecodeError.tooShort 1), ⟨some (dst.noncesMap.getD [])⟩, s) := by
  simp [decodeLocalNoncesData]

theorem decodeLocalNoncesData_count (n : Nat) (body : List Nat) (dst : LocalNoncesData)
    (recordLen : Nat) (h2 : 2 ≤ recordLen) :
    decodeLocalNoncesData (putUint16be n ++ body) dst recordLen
      = if recordLen ≠ 2 + n * 98 then
          (Except.error (DecodeError.lengthMismatch recordLen (2 + n * 98)),
            ⟨some (dst.noncesMap.getD [])⟩, body)
        else if n = 0 then
          (Except.ok (),
            ⟨some (if 0 < (dst.noncesMap.getD []).length then []
              else dst.noncesMap.getD [])⟩, body)
        else
          ((decodeLoop body n []).1, ⟨some (decodeLoop body n []).2.1⟩,
            (decodeLoop body n []).2.2) := by
  have hlt : ¬ recordLen < 2 := by omega
  have hstream : putUint16be n ++ body = n / 256 :: n % 256 :: body := rfl
  have hcount : n / 256 * 256 + n % 256 = n := by omega
  rw [hstream, decodeLocalNoncesData]
  rw [if_neg hlt]
  have hs : 2 ≤ (n / 256 :: n % 256 :: body).length := by simp
  rw [if_pos hs]
  simp only [List.getD_cons_zero, List.getD_cons_succ, List.drop_succ_cons,
    List.drop_zero, hcount, HashSize, PubNonceSize]

theorem ite_clear (m : NMap) : (if 0 < m.length then ([] : NMap) else m) = [] := by
  cases m <;> simp

theorem decodeLoop_not_mismatch (n : Nat) :
    ∀ (s : List Nat) (m : NMap) (rl exp : Nat),
      (decodeLoop s n m).1 ≠ Except.error (DecodeError.lengthMismatch rl exp) := by
  induction n with
  | zero => intro s m rl exp; simp [decodeLoop]
  | succ k ih =>
    intro s m rl exp
    simp only [decodeLoop]
    split_ifs with h1 h2
    · exact ih _ _ rl exp
    · simp
    · simp

theorem decode_noncesMap_some (s : List Nat) (dst : LocalNoncesData) (recordLen : Nat) :
    ∃ m : NMap, (decodeLocalNoncesData s dst recordLen).2.1 = ⟨some m⟩ := by
  simp only [decodeLocalNoncesData]
  split_ifs <;> exact ⟨_, rfl⟩

/-! Lemmas about the shape of the encoder output. -/

theorem encodeLocalNoncesData_some (m : NMap) (hne : m ≠ []) :
    encodeLocalNoncesData ⟨some m⟩
      = putUint16be (toUint16 (sortEntries m).length)
        ++ (sortEntries m).flatMap (fun e => e.1 ++ e.2) := by
  have h : ¬ m.length = 0 := by simpa [List.length_eq_zero] using hne
  simp [encodeLocalNoncesData, h]

theorem encodeLocalNoncesData_length (m : NMap)
    (hlen : ∀ e ∈ m, e.1.length = HashSize ∧ e.2.length = PubNonceSize) :
    (encodeLocalNoncesData ⟨some m⟩).length = 2 + m.length * 98 := by
  by_cases hm : m = []
  · subst hm; simp [encodeLocalNoncesData, putUint16be, toUint16]
  · have h : ¬ m.length = 0 := by simpa [List.length_eq_zero] using hm
    have hperm := perm_sortEntries m
    have hlen' : ∀ e ∈ sortEntries m, e.1.length = HashSize ∧ e.2.length = PubNonceSize :=
      fun e he => hlen e (hperm.subset he)
    rw [encodeLocalNoncesData_some m hm, List.length_append,
      flatMap_entries_length _ hlen', hperm.length_eq]
    simp [putUint16be, h]

/-! Facts about the 65536-entry test collection. -/

theorem bigCollection_length : bigCollection.length = 65536 := by
  simp [bigCollection]

theorem bigCollection_entry_lengths :
    ∀ e ∈ bigCollection, e.1.length = HashSize ∧ e.2.length = PubNonceSize := by
  intro e he
  simp only [bigCollection, List.mem_map] at he
  obtain ⟨i, _, rfl⟩ := he
  exact ⟨by simp [bigId, HashSize], by simp [PubNonceSize]⟩

theorem bigId_inj (i j : Nat) (h : bigId i = bigId j) : i = j := by
  have h2 : [i / 256, i % 256] = [j / 256, j % 256] :=
    List.append_cancel_left h
  have hd : i / 256 = j / 256 := by injection h2
  have hm : i % 256 = j % 256 := by
    injection h2 with _ h3
    injection h3
  omega

theorem bigCollection_nodup : (bigCollection.map Prod.fst).Nodup := by
  have hmap : bigCollection.map Prod.fst = (List.range 65536).map bigId := by
    simp [bigCollection, List.map_map]
  rw [hmap]
  refine List.Nodup.map_on ?_ (List.nodup_range 65536)
  intro x _ y _ hxy
  exact bigId_inj x y hxy

/-! The claims. -/

/-- Claim C6: for every declared length strictly between 0 and 2, that is
declared length 1, decode fails with kind TooShort; the outcome and the
remaining stream are independent of the stream contents, so no count or
entry bytes are read, and the destination keeps its prior entries. -/
theorem claim_C6 (s : List Nat) (dst : LocalNoncesData) (recordLen : Nat)
    (h0 : 0 < recordLen) (h2 : recordLen < 2) :
    decodeLocalNoncesData s dst recordLen
      = (Except.error (DecodeError.tooShort recordLen),
          ⟨some (dst.noncesMap.getD [])⟩, s) := by
  have h1 : recordLen = 1 := by omega
  subst h1
  exact decodeLocalNoncesData_one s dst

/-- Witness for claim C6 at declared length 1 on a 3-byte stream. -/
theorem claim_C6_witness :
    0 < 1 ∧ 1 < 2 ∧
    decodeLocalNoncesData [9, 9, 9] ⟨some [(txidLo, nonceLo)]⟩ 1
      = (Except.error (DecodeError.tooShort 1), ⟨some [(txidLo, nonceLo)]⟩, [9, 9, 9]) :=
  ⟨Nat.one_pos, Nat.one_lt_two,
    claim_C6 [9, 9, 9] ⟨some [(txidLo, nonceLo)]⟩ 1 Nat.one_pos Nat.one_lt_two⟩

/-- Claim C7: decoding with declared length 0 succeeds with an empty
collection for every stream and every prior destination, and decoding the
two bytes 0x00 0x00 with declared length 2 also succeeds with an empty
collection; in both cases any prior entries of the destination are
removed. -/
theorem claim_C7 (s : List Nat) (dst : LocalNoncesData) :
    decodeLocalNoncesData s dst 0 = (Except.ok (), ⟨some []⟩, s) ∧
    decodeLocalNoncesData [0, 0] dst 2 = (Except.ok (), ⟨some []⟩, []) := by
  refine ⟨decodeLocalNoncesData_zero s dst, ?_⟩
  have h : ([0, 0] : List Nat) = putUint16be 0 ++ [] := rfl
  rw [h, decodeLocalNoncesData_count 0 [] dst 2 (by omega)]
  simp [ite_clear]

/-- Claim C10: every decode call on a destination holding a nil map leaves
the destination map non-nil, whatever the outcome; in particular a failed
decode with declared length 1 still turns the nil map into an initialized
empty one, mutating the destination. -/
theorem claim_C10 (s : List Nat) (recordLen : Nat) :
    ((decodeLocalNoncesData s ⟨none⟩ recordLen).2.1).noncesMap ≠ none ∧
    decodeLocalNoncesData s ⟨none⟩ 1
      = (Except.error (DecodeError.tooShort 1), ⟨some []⟩, s) := by
  constructor
  · obtain ⟨m, hm⟩ := decode_noncesMap_some s ⟨none⟩ recordLen
    rw [hm]
    simp
  · simpa using decodeLocalNoncesData_one s ⟨none⟩

/-- Claim C5: with a declared length of at least 2 and the two count bytes
available on the stream, decode fails with kind LengthMismatch exactly
when the declared length differs from 2 plus 98 times the decoded
big-endian count, regardless of the direction of the difference. -/
theorem claim_C5 (s : List Nat) (dst : LocalNoncesData) (recordLen : Nat)
    (h2 : 2 ≤ recordLen) (hs : 2 ≤ s.length) :
    (∃ rl exp, (decodeLocalNoncesData s dst recordLen).1
        = Except.error (DecodeError.lengthMismatch rl exp))
      ↔ recordLen ≠ 2 + (s.getD 0 0 * 256 + s.getD 1 0) * 98 := by
  have hlt : ¬ recordLen < 2 := by omega
  have hexp : HashSize + PubNonceSize = 98 := rfl
  simp only [decodeLocalNoncesData, hexp]
  rw [if_neg hlt, if_pos hs]
  by_cases hmm : recordLen ≠ 2 + (s.getD 0 0 * 256 + s.getD 1 0) * 98
  · rw [if_pos hmm]
    exact iff_of_true ⟨recordLen, 2 + (s.getD 0 0 * 256 + s.getD 1 0) * 98, rfl⟩ hmm
  · rw [if_neg hmm]
    refine iff_of_false ?_ hmm
    by_cases hz : s.getD 0 0 * 256 + s.getD 1 0 = 0
    · rw [if_pos hz]
      rintro ⟨rl, exp, h⟩
      simp at h
    · rw [if_neg hz]
      rintro ⟨rl, exp, h⟩
      exact decodeLoop_not_mismatch _ _ _ rl exp h

/-- Witness for claim C5: count 1 with declared length 2 is a mismatch. -/
theorem claim_C5_witness :
    2 ≤ 2 ∧ 2 ≤ ([0, 1] : List Nat).length ∧
    ((∃ rl exp, (decodeLocalNoncesData [0, 1] ⟨none⟩ 2).1
        = Except.error (DecodeError.lengthMismatch rl exp))
      ↔ 2 ≠ 2 + (([0, 1] : List Nat).getD 0 0 * 256 + ([0, 1] : List Nat).getD 1 0) * 98) :=
  ⟨Nat.le_refl 2, by decide, claim_C5 [0, 1] ⟨none⟩ 2 (Nat.le_refl 2) (by decide)⟩

/-- Claim C4: for every collection of count entries, count at most 65535,
the encoder output is the 2-byte big-endian count followed by the sorted
entries back to back, 32 id bytes then 66 nonce bytes each, for a total
length of exactly 2 + count * 98; an empty collection encodes to exactly
the two bytes 0x00 0x00, as does a nil map. -/
theorem claim_C4 (m : NMap)
    (hlen : ∀ e ∈ m, e.1.length = HashSize ∧ e.2.length = PubNonceSize)
    (hcount : m.length ≤ 65535) :
    (encodeLocalNoncesData ⟨some m⟩).length = 2 + m.length * 98 ∧
    encodeLocalNoncesData ⟨some m⟩
      = putUint16be m.length ++ (sortEntries m).flatMap (fun e => e.1 ++ e.2) ∧
    (m.length = 0 → encodeLocalNoncesData ⟨some m⟩ = [0, 0]) ∧
    encodeLocalNoncesData ⟨none⟩ = [0, 0] := by
  refine ⟨encodeLocalNoncesData_length m hlen, ?_, ?_, rfl⟩
  · by_cases hm : m = []
    · subst hm; rfl
    · rw [encodeLocalNoncesData_some m hm]
      have hnu : toUint16 (sortEntries m).length = m.length := by
        show (sortEntries m).length % 65536 = m.length
        rw [(perm_sortEntries m).length_eq]
        exact Nat.mod_eq_of_lt (by omega)
      rw [hnu]
  · intro h0
    have hm : m = [] := List.length_eq_zero.mp h0
    subst hm; rfl

/-- Witness for claim C4 at a one-entry collection. -/
theorem claim_C4_witness :
    (∀ e ∈ [((txidLo : Hash), (nonceLo : Musig2Nonce))],
        e.1.length = HashSize ∧ e.2.length = PubNonceSize) ∧
    (encodeLocalNoncesData ⟨some [(txidLo, nonceLo)]⟩).length = 2 + 1 * 98 := by
  refine ⟨by decide, ?_⟩
  have h := claim_C4 [(txidLo, nonceLo)] (by decide) (by decide)
  simpa using h.1

/-- Claim C3: for a nonempty collection of entries with distinct ids the
encoder writes the entries in strictly ascending byte-lexicographic id
order after the count field, so any two enumeration orders of the same
set of entries produce byte-identical output. -/
theorem claim_C3 (S1 S2 : NMap) (hperm : S1.Perm S2)
    (hnd : (S1.map Prod.fst).Nodup) (hne : S1 ≠ []) :
    encodeLocalNoncesData ⟨some S1⟩ = encodeLocalNoncesData ⟨some S2⟩ ∧
    ∃ sorted : List LocalNonceEntry, sorted.Perm S1 ∧
      sorted.Pairwise (fun a b => bytesLt a.1 b.1 = true) ∧
      encodeLocalNoncesData ⟨some S1⟩
        = putUint16be (toUint16 sorted.length)
          ++ sorted.flatMap (fun e => e.1 ++ e.2) := by
  have hS2 : S2 ≠ [] := fun h => hne ((h ▸ hperm).eq_nil)
  refine ⟨?_, sortEntries S1, perm_sortEntries S1, ?_, encodeLocalNoncesData_some S1 hne⟩
  · rw [encodeLocalNoncesData_some S1 hne, encodeLocalNoncesData_some S2 hS2,
      sortEntries_eq_of_perm S1 S2 hperm hnd]
  · exact pairwise_keyLt_of_nodup _ (pairwise_sortEntries S1)
      (((perm_sortEntries S1).map Prod.fst).nodup_iff.mpr hnd)

/-- Witness for claim C3 at a two-entry collection enumerated both ways. -/
theorem claim_C3_witness :
    ([((txidHi : Hash), (nonceHi : Musig2Nonce)), (txidLo, nonceLo)]).Perm
        [((txidLo : Hash), (nonceLo : Musig2Nonce)), (txidHi, nonceHi)] ∧
    encodeLocalNoncesData ⟨some [(txidHi, nonceHi), (txidLo, nonceLo)]⟩
      = encodeLocalNoncesData ⟨some [(txidLo, nonceLo), (txidHi, nonceHi)]⟩ :=
  ⟨List.Perm.swap (txidLo, nonceLo) (txidHi, nonceHi) [],
    (claim_C3 [(txidHi, nonceHi), (txidLo, nonceLo)] [(txidLo, nonceLo), (txidHi, nonceHi)]
      (List.Perm.swap (txidLo, nonceLo) (txidHi, nonceHi) []) (by decide) (by decide)).1⟩

/-- Claim C9 evaluation at the failing input family: the encoder does not
reject an entry count beyond the 16-bit range; for every collection of
exactly 65536 entries it silently succeeds, emitting a count field wrapped
around to 0x00 0x00 while still writing all 65536 entries, making the wire
count inconsistent with the data. -/
theorem claim_C9_wraparound (es : NMap)
    (hcount : es.length = 65536)
    (hlen : ∀ e ∈ es, e.1.length = HashSize ∧ e.2.length = PubNonceSize) :
    (encodeLocalNoncesData ⟨some es⟩).take 2 = putUint16be 0 ∧
    (encodeLocalNoncesData ⟨some es⟩).length = 2 + 65536 * 98 := by
  have hne : es ≠ [] := by
    intro h
    rw [h] at hcount
    simp at hcount
  constructor
  · rw [encodeLocalNoncesData_some es hne]
    have h1 : toUint16 (sortEntries es).length = 0 := by
      rw [(perm_sortEntries es).length_eq, hcount]
      rfl
    rw [h1]
    rfl
  · rw [encodeLocalNoncesData_length es hlen, hcount]

/-- Witness for claim C9 at the 65536-entry collection. -/
theorem claim_C9_witness :
    bigCollection.length = 65536 ∧
    (encodeLocalNoncesData ⟨some bigCollection⟩).take 2 = putUint16be 0 :=
  ⟨bigCollection_length,
    (claim_C9_wraparound bigCollection bigCollection_length bigCollection_entry_lengths).1⟩

/-- Claim C1 evaluation at a failing input: decoding a stream that declares
two entries but carries only one aborts with a truncated-read error, yet
the destination no longer holds its prior entry; the map was replaced
before the loop and left partially populated with the one entry read
before the failure. -/
theorem claim_C1_partial_mutation :
    (decodeLocalNoncesData ([0, 2] ++ (txidLo ++ nonceLo))
        ⟨some [(txidHi, nonceHi)]⟩ 198).1 = Except.error DecodeError.truncated ∧
    (decodeLocalNoncesData ([0, 2] ++ (txidLo ++ nonceLo))
        ⟨some [(txidHi, nonceHi)]⟩ 198).2.1 = ⟨some [(txidLo, nonceLo)]⟩ ∧
    [((txidLo : Hash), (nonceLo : Musig2Nonce))] ≠ [(txidHi, nonceHi)] :=
  ⟨rfl, rfl, by decide⟩

/-- Claim C8: decoding a well-lengthed input succeeds even when the entry
list repeats an id, and the resulting collection maps every id to the
nonce of the last entry carrying it in stream order, so a later duplicate
silently overwrites an earlier one rather than raising an error. -/
theorem claim_C8 (es : List LocalNonceEntry) (dst : LocalNoncesData)
    (hlen : ∀ e ∈ es, e.1.length = HashSize ∧ e.2.length = PubNonceSize)
    (hcount : es.length ≤ 65535) :
    ∃ m : NMap,
      decodeLocalNoncesData
          (putUint16be es.length ++ es.flatMap (fun e => e.1 ++ e.2))
          dst (2 + es.length * 98)
        = (Except.ok (), ⟨some m⟩, []) ∧
      ∀ k : Hash, mapLookup m k = lastAssoc es k := by
  rw [decodeLocalNoncesData_count es.length _ dst _ (by omega)]
  rw [if_neg (by omega : ¬ 2 + es.length * 98 ≠ 2 + es.length * 98)]
  by_cases hz : es.length = 0
  · have hnil : es = [] := List.length_eq_zero.mp hz
    subst hnil
    refine ⟨[], ?_, fun k => rfl⟩
    simp [ite_clear]
  · rw [if_neg hz]
    have hb : es.flatMap (fun e => e.1 ++ e.2)
        = es.flatMap (fun e => e.1 ++ e.2) ++ [] := (List.append_nil _).symm
    have hloop : decodeLoop (es.flatMap (fun e => e.1 ++ e.2)) es.length []
        = (Except.ok (), es.foldl (fun a e => mapInsert a e.1 e.2) [], []) := by
      conv_lhs => rw [hb]
      exact decodeLoop_encoded es [] [] hlen
    rw [hloop]
    refine ⟨es.foldl (fun a e => mapInsert a e.1 e.2) [], rfl, fun k => ?_⟩
    rw [mapLookup_foldl]
    cases lastAssoc es k <;> rfl

/-- Witness for claim C8 at a two-entry stream repeating one id with two
different nonces. -/
theorem claim_C8_witness :
    (∀ e ∈ [((txidLo : Hash), (nonceLo : Musig2Nonce)), (txidLo, nonceHi)],
        e.1.length = HashSize ∧ e.2.length = PubNonceSize) ∧
    ∃ m : NMap,
      decodeLocalNoncesData
          (putUint16be ([((txidLo : Hash), (nonceLo : Musig2Nonce)),
              (txidLo, nonceHi)]).length
            ++ ([((txidLo : Hash), (nonceLo : Musig2Nonce)),
              (txidLo, nonceHi)]).flatMap (fun e => e.1 ++ e.2))
          ⟨none⟩
          (2 + ([((txidLo : Hash), (nonceLo : Musig2Nonce)),
              (txidLo, nonceHi)]).length * 98)
        = (Except.ok (), ⟨some m⟩, []) ∧
      ∀ k : Hash, mapLookup m k
        = lastAssoc [((txidLo : Hash), (nonceLo : Musig2Nonce)), (txidLo, nonceHi)] k :=
  ⟨by decide,
    claim_C8 [(txidLo, nonceLo), (txidLo, nonceHi)] ⟨none⟩ (by decide) (by decide)⟩

/-- Claim C2 counterexample: the round-trip property as stated fails for
the concrete collection of 65536 entries with pairwise distinct 32-byte
ids and 66-byte nonces; the encoder wraps the count field to zero, so
decoding its own output at its own length fails with a length mismatch
instead of succeeding with the original collection. -/
theorem claim_C2_counterexample :
    (bigCollection.map Prod.fst).Nodup ∧
    (∀ e ∈ bigCollection, e.1.length = HashSize ∧ e.2.length = PubNonceSize) ∧
    (decodeLocalNoncesData (encodeLocalNoncesData ⟨some bigCollection⟩) ⟨some []⟩
        (encodeLocalNoncesData ⟨some bigCollection⟩).length).1
      = Except.error (DecodeError.lengthMismatch (2 + 65536 * 98) 2) := by
  refine ⟨bigCollection_nodup, bigCollection_entry_lengths, ?_⟩
  have hne : bigCollection ≠ [] := by
    intro h
    have hl := bigCollection_length
    rw [h] at hl
    simp at hl
  have hsortlen : (sortEntries bigCollection).length = 65536 := by
    rw [(perm_sortEntries bigCollection).length_eq, bigCollection_length]
  have hlen' : ∀ e ∈ sortEntries bigCollection,
      e.1.length = HashSize ∧ e.2.length = PubNonceSize :=
    fun e he => bigCollection_entry_lengths e ((perm_sortEntries bigCollection).subset he)
  have h0 : toUint16 (sortEntries bigCollection).length = 0 := by
    rw [hsortlen]
    rfl
  have he : encodeLocalNoncesData ⟨some bigCollection⟩
      = putUint16be 0 ++ (sortEntries bigCollection).flatMap (fun e => e.1 ++ e.2) := by
    rw [encodeLocalNoncesData_some _ hne, h0]
  have hL : (encodeLocalNoncesData ⟨some bigCollection⟩).length = 2 + 65536 * 98 := by
    rw [encodeLocalNoncesData_length _ bigCollection_entry_lengths, bigCollection_length]
  rw [hL, he, decodeLocalNoncesData_count 0 _ ⟨some []⟩ _ (by omega)]
  rw [if_pos (by omega : (2 + 65536 * 98 : Nat) ≠ 2 + 0 * 98)]

/-- Claim C2 amended: for every collection of at most 65535 entries with
distinct 32-byte ids and 66-byte nonces, decoding the encoder output with
the declared length equal to its byte length succeeds, consumes the whole
stream, and yields a collection holding exactly the same set of pairs. -/
theorem claim_C2_roundtrip (S : NMap)
    (hnd : (S.map Prod.fst).Nodup)
    (hlen : ∀ e ∈ S, e.1.length = HashSize ∧ e.2.length = PubNonceSize)
    (hcount : S.length ≤ 65535) :
    ∃ m : NMap,
      decodeLocalNoncesData (encodeLocalNoncesData ⟨some S⟩) ⟨some []⟩
          (encodeLocalNoncesData ⟨some S⟩).length
        = (Except.ok (), ⟨some m⟩, []) ∧
      ∀ p : LocalNonceEntry, p ∈ m ↔ p ∈ S := by
  by_cases hS : S = []
  · subst hS
    refine ⟨[], ?_, by simp⟩
    have he : encodeLocalNoncesData ⟨some ([] : NMap)⟩ = putUint16be 0 ++ ([] : List Nat) := rfl
    have hL : (encodeLocalNoncesData ⟨some ([] : NMap)⟩).length = 2 := rfl
    rw [hL, he, decodeLocalNoncesData_count 0 [] ⟨some []⟩ 2 (by omega)]
    simp
  · have hperm := perm_sortEntries S
    have hlen' : ∀ e ∈ sortEntries S, e.1.length = HashSize ∧ e.2.length = PubNonceSize :=
      fun e he => hlen e (hperm.subset he)
    have hslen : (sortEntries S).length = S.length := hperm.length_eq
    have hnu : toUint16 (sortEntries S).length = S.length := by
      show (sortEntries S).length % 65536 = S.length
      rw [hslen]
      exact Nat.mod_eq_of_lt (by omega)
    have he : encodeLocalNoncesData ⟨some S⟩
        = putUint16be S.length ++ (sortEntries S).flatMap (fun e => e.1 ++ e.2) := by
      rw [encodeLocalNoncesData_some _ hS, hnu]
    have hL : (encodeLocalNoncesData ⟨some S⟩).length = 2 + S.length * 98 :=
      encodeLocalNoncesData_length S hlen
    rw [hL, he, decodeLocalNoncesData_count S.length _ ⟨some []⟩ _ (by omega)]
    rw [if_neg (by omega : ¬ 2 + S.length * 98 ≠ 2 + S.length * 98)]
    have hS0 : ¬ S.length = 0 := by simpa [List.length_eq_zero] using hS
    rw [if_neg hS0]
    have hb : (sortEntries S).flatMap (fun e => e.1 ++ e.2)
        = (sortEntries S).flatMap (fun e => e.1 ++ e.2) ++ [] := (List.append_nil _).symm
    have hloop : decodeLoop ((sortEntries S).flatMap (fun e => e.1 ++ e.2)) S.length []
        = (Except.ok (),
            (sortEntries S).foldl (fun a e => mapInsert a e.1 e.2) [], []) := by
      conv_lhs => rw [hb, ← hslen]
      exact decodeLoop_encoded _ [] [] hlen'
    rw [hloop]
    have hnds : ((sortEntries S).map Prod.fst).Nodup :=
      ((hperm.map Prod.fst).nodup_iff).mpr hnd
    have hfold : (sortEntries S).foldl (fun a e => mapInsert a e.1 e.2) [] = sortEntries S := by
      have h := foldl_mapInsert_eq_append (sortEntries S) [] hnds (fun k _ => by simp)
      simpa using h
    refine ⟨(sortEntries S).foldl (fun a e => mapInsert a e.1 e.2) [], rfl, fun p => ?_⟩
    rw [hfold]
    exact hperm.mem_iff

/-- Witness for the amended claim C2 at a one-entry collection. -/
theorem claim_C2_witness :
    (([((txidLo : Hash), (nonceLo : Musig2Nonce))].map Prod.fst).Nodup) ∧
    ∃ m : NMap,
      decodeLocalNoncesData (encodeLocalNoncesData ⟨some [(txidLo, nonceLo)]⟩) ⟨some []⟩
          (encodeLocalNoncesData ⟨some [(txidLo, nonceLo)]⟩).length
        = (Except.ok (), ⟨some m⟩, []) ∧
      ∀ p : LocalNonceEntry, p ∈ m ↔ p ∈ [((txidLo : Hash), (nonceLo : Musig2Nonce))] :=
  ⟨by decide, claim_C2_roundtrip [(txidLo, nonceLo)] (by decide) (by decide) (by decide)⟩

end LnwireLocalNonces
